import Mathlib

/-!
Shallow embedding of the fuzzy-logic core in `fuzzy.py` (classes
`MembershipFunction`, `FuzzySet`, `FuzzyRule`, `FuzzyInferenceSystem` and the
factories `triangular`, `trapezoidal`).  Python floats are modelled as `ℚ`;
Python dicts keyed by floats are modelled as association lists `List (ℚ × ℚ)`
with first-occurrence insertion order, matching CPython dict semantics.
-/

/-- Python dict membership-update: if the key is present the entry is updated
in place (insertion position kept), otherwise the pair is appended. -/
def dictInsert (d : List (ℚ × ℚ)) (k v : ℚ) : List (ℚ × ℚ) :=
  if d.any (fun p => p.1 = k) then
    d.map (fun p => if p.1 = k then (k, v) else p)
  else
    d ++ [(k, v)]

/-- Python dict read `d[k]`, as an option (first entry with the key). -/
def dictGet (d : List (ℚ × ℚ)) (k : ℚ) : Option ℚ :=
  (d.find? (fun p => p.1 = k)).map Prod.snd

/-- The key sequence of a dict, in insertion order. -/
def dictKeys (d : List (ℚ × ℚ)) : List ℚ :=
  d.map Prod.fst

/-- The dict comprehension standing for Python `{x: f(x) for x in l}`. -/
def buildDict (f : ℚ → ℚ) (l : List ℚ) : List (ℚ × ℚ) :=
  l.foldl (fun d x => dictInsert d x (f x)) []

/-- First-occurrence deduplication, accumulating the keys already seen. -/
def firstDedupAux : List ℚ → List ℚ → List ℚ
  | [], _ => []
  | x :: xs, seen =>
      if x ∈ seen then firstDedupAux xs seen
      else x :: firstDedupAux xs (x :: seen)

/-- First-occurrence deduplication of a list, the key order of a Python dict
built by iterating over the list. -/
def firstDedup (l : List ℚ) : List ℚ :=
  firstDedupAux l []

/-- Source `MembershipFunction.__init__`: an underlying rule `func` and a name. -/
structure MembershipFunction where
  func : ℚ → ℚ
  name : String

/-- Source `MembershipFunction.__call__`: `max(0.0, min(1.0, self.func(x)))`. -/
def MembershipFunction.call (f : MembershipFunction) (x : ℚ) : ℚ :=
  max 0 (min 1 (f.func x))

/-- Source `FuzzySet.__init__`: a membership function over a universe. -/
structure FuzzySet where
  mu : MembershipFunction
  univ : List ℚ

/-- The cached table `self.members = {x: mu(x) for x in universe}`. -/
def FuzzySet.members (A : FuzzySet) : List (ℚ × ℚ) :=
  buildDict (fun x => A.mu.call x) A.univ

/-- Evaluating a set's membership function at a point, as the source does with
`A.mu(x)` (the spec calls this `membership(x)`). -/
def FuzzySet.membership (A : FuzzySet) (x : ℚ) : ℚ :=
  A.mu.call x

/-- Source `FuzzySet.complement`: membership rule `lambda x: 1 - self.mu(x)`. -/
def FuzzySet.complement (A : FuzzySet) : FuzzySet :=
  ⟨⟨fun x => 1 - A.mu.call x, "not_" ++ A.mu.name⟩, A.univ⟩

/-- Source `FuzzySet.intersection`: membership rule `lambda x: min(A.mu(x), B.mu(x))`. -/
def FuzzySet.intersection (A B : FuzzySet) : FuzzySet :=
  ⟨⟨fun x => min (A.mu.call x) (B.mu.call x),
    "(" ++ A.mu.name ++ "_and_" ++ B.mu.name ++ ")"⟩, A.univ⟩

/-- Source `FuzzySet.union`: membership rule `lambda x: max(A.mu(x), B.mu(x))`. -/
def FuzzySet.union (A B : FuzzySet) : FuzzySet :=
  ⟨⟨fun x => max (A.mu.call x) (B.mu.call x),
    "(" ++ A.mu.name ++ "_or_" ++ B.mu.name ++ ")"⟩, A.univ⟩

/-- The input record `Dict[str, float]` handed to rule antecedents. -/
def Inputs : Type := List (String × ℚ)

/-- Source `FuzzyRule`: an antecedent returning a firing degree and a consequent set. -/
structure FuzzyRule where
  antecedent : Inputs → ℚ
  consequent : FuzzySet

/-- Source `FuzzyInferenceSystem.__init__`: input universe, output range, rule list. -/
structure FuzzyInferenceSystem where
  univ : List ℚ
  output_range : List ℚ
  rules : List FuzzyRule

/-- Source `add_rule`: appends the rule to the rule list. -/
def FuzzyInferenceSystem.add_rule (s : FuzzyInferenceSystem) (r : FuzzyRule) :
    FuzzyInferenceSystem :=
  { s with rules := s.rules ++ [r] }

/-- Source `infer`: `aggregated = {y: 0.0 for y in output_range}`, then for each rule
and each output point `y`,
`aggregated[y] = max(aggregated[y], min(degree, rule.consequent.mu(y)))`. -/
def FuzzyInferenceSystem.infer (s : FuzzyInferenceSystem) (inputs : Inputs) :
    List (ℚ × ℚ) :=
  s.rules.foldl
    (fun agg rule =>
      s.output_range.foldl
        (fun agg y =>
          dictInsert agg y
            (max ((dictGet agg y).getD 0)
              (min (rule.antecedent inputs) (rule.consequent.mu.call y))))
        agg)
    (buildDict (fun _ => 0) s.output_range)

/-- The value `infer` computes at one output point: the fold of
`max · (min degree (consequent.mu y))` over the rules, started at `0.0`
(proved below to be what the returned dict holds at `y`). -/
def inferAt (s : FuzzyInferenceSystem) (inputs : Inputs) (y : ℚ) : ℚ :=
  s.rules.foldl
    (fun acc rule =>
      max acc (min (rule.antecedent inputs) (rule.consequent.mu.call y)))
    0

/-- Source `defuzzify`: centroid `num / den` with `num = Σ y·μ(y)`, `den = Σ μ(y)`,
returning `0.0` when `den == 0`. -/
def FuzzyInferenceSystem.defuzzify (_s : FuzzyInferenceSystem)
    (aggregated : List (ℚ × ℚ)) : ℚ :=
  let num := (aggregated.map (fun p => p.1 * p.2)).sum
  let den := (aggregated.map (fun p => p.2)).sum
  if den ≠ 0 then num / den else 0

/-- The raw rule of `triangular(a, b, c)`:
0 outside the open interval, `(x-a)/(b-a)` below `b`, `(c-x)/(c-b)` above. -/
def triangularMu (a b c : ℚ) (x : ℚ) : ℚ :=
  if x ≤ a ∨ x ≥ c then 0
  else if x < b then (x - a) / (b - a) else (c - x) / (c - b)

/-- Source `triangular(a, b, c)` wraps the raw rule in a `MembershipFunction`. -/
def triangular (a b c : ℚ) : MembershipFunction :=
  ⟨triangularMu a b c,
   "tri_" ++ toString a ++ "_" ++ toString b ++ "_" ++ toString c⟩

/-- The raw rule of `trapezoidal(a, b, c, d)`. -/
def trapezoidalMu (a b c d : ℚ) (x : ℚ) : ℚ :=
  if x ≤ a ∨ x ≥ d then 0
  else if a < x ∧ x < b then (x - a) / (b - a)
  else if b ≤ x ∧ x ≤ c then 1
  else (d - x) / (d - c)

/-- Source `trapezoidal(a, b, c, d)` wraps the raw rule in a `MembershipFunction`. -/
def trapezoidal (a b c d : ℚ) : MembershipFunction :=
  ⟨trapezoidalMu a b c d,
   "trap_" ++ toString a ++ "_" ++ toString b ++ "_" ++ toString c ++ "_" ++
     toString d⟩

/-- Division that records a zero denominator instead of defaulting: used to
express that the source's divisions never have a zero denominator. -/
def safeDiv (n d : ℚ) : Option ℚ :=
  if d = 0 then none else some (n / d)

/-- Source `triangularMu` with each division checked for a zero denominator. -/
def triangularMuChecked (a b c : ℚ) (x : ℚ) : Option ℚ :=
  if x ≤ a ∨ x ≥ c then some 0
  else if x < b then safeDiv (x - a) (b - a) else safeDiv (c - x) (c - b)

/-- Source `trapezoidalMu` with each division checked for a zero denominator. -/
def trapezoidalMuChecked (a b c d : ℚ) (x : ℚ) : Option ℚ :=
  if x ≤ a ∨ x ≥ d then some 0
  else if a < x ∧ x < b then safeDiv (x - a) (b - a)
  else if b ≤ x ∧ x ≤ c then some 1
  else safeDiv (d - x) (d - c)

/-! ### Clamping lemmas -/

lemma clamp_nonneg (v : ℚ) : 0 ≤ max 0 (min 1 v) :=
  le_max_left 0 (min 1 v)

lemma clamp_le_one (v : ℚ) : max 0 (min 1 v) ≤ 1 :=
  max_le zero_le_one (min_le_left 1 v)

lemma clamp_eq_self (v : ℚ) (h0 : 0 ≤ v) (h1 : v ≤ 1) : max 0 (min 1 v) = v := by
  rw [min_eq_right h1, max_eq_right h0]

lemma call_nonneg (f : MembershipFunction) (x : ℚ) : 0 ≤ f.call x :=
  clamp_nonneg (f.func x)

lemma call_le_one (f : MembershipFunction) (x : ℚ) : f.call x ≤ 1 :=
  clamp_le_one (f.func x)

/-- C3: every `MembershipFunction`, whatever raw values its underlying rule
takes, evaluates under `__call__` to a value clamped into `[0, 1]`. -/
theorem membership_call_in_unit (f : MembershipFunction) (x : ℚ) :
    0 ≤ f.call x ∧ f.call x ≤ 1 :=
  ⟨call_nonneg f x, call_le_one f x⟩

/-- C6: pointwise laws of the set algebra: complement is `1 − μ`, union is
the pointwise `max`, intersection the pointwise `min`. -/
theorem fuzzyset_algebra_pointwise (A B : FuzzySet) (x : ℚ) :
    A.complement.membership x = 1 - A.membership x ∧
    (FuzzySet.union A B).membership x =
      max (A.membership x) (B.membership x) ∧
    (FuzzySet.intersection A B).membership x =
      min (A.membership x) (B.membership x) := by
  refine ⟨?_, ?_, ?_⟩
  · show max 0 (min 1 (1 - A.mu.call x)) = 1 - A.mu.call x
    exact clamp_eq_self _ (by linarith [call_le_one A.mu x])
      (by linarith [call_nonneg A.mu x])
  · show max 0 (min 1 (max (A.mu.call x) (B.mu.call x))) = _
    exact clamp_eq_self _
      (le_max_of_le_left (call_nonneg A.mu x))
      (max_le (call_le_one A.mu x) (call_le_one B.mu x))
  · show max 0 (min 1 (min (A.mu.call x) (B.mu.call x))) = _
    exact clamp_eq_self _
      (le_min (call_nonneg A.mu x) (call_nonneg B.mu x))
      (min_le_of_left_le (call_le_one A.mu x))

/-! ### Shape constructors: triangular and trapezoidal -/

lemma triangularMu_zero (a b c x : ℚ) (h : x ≤ a ∨ c ≤ x) :
    triangularMu a b c x = 0 := by
  unfold triangularMu
  exact if_pos h

lemma clamp_zero : max 0 (min 1 (0 : ℚ)) = 0 := by norm_num

lemma clamp_one : max 0 (min 1 (1 : ℚ)) = 1 := by norm_num

/-- C4 (amended): for `a ≤ b ≤ c` the triangular function is `0` at `a`, at
`c`, and at every `x ≤ a` or `x ≥ c`; the peak value `f(b) = 1` holds when the
peak is interior (`a < b < c`), while a degenerate peak (`b = a` or `b = c`)
falls under the boundary-zero rule. -/
theorem triangular_boundary_peak (a b c : ℚ) (hab : a ≤ b) (hbc : b ≤ c) :
    (triangular a b c).call a = 0 ∧ (triangular a b c).call c = 0 ∧
    (∀ x : ℚ, x ≤ a ∨ c ≤ x → (triangular a b c).call x = 0) ∧
    (a < b → b < c → (triangular a b c).call b = 1) := by
  have hz : ∀ x : ℚ, x ≤ a ∨ c ≤ x → (triangular a b c).call x = 0 := by
    intro x hx
    show max 0 (min 1 (triangularMu a b c x)) = 0
    rw [triangularMu_zero a b c x hx, clamp_zero]
  refine ⟨hz a (Or.inl le_rfl), hz c (Or.inr le_rfl), hz, ?_⟩
  intro hab' hbc'
  show max 0 (min 1 (triangularMu a b c b)) = 1
  have h1 : ¬(b ≤ a ∨ b ≥ c) := by
    push_neg
    exact ⟨hab', hbc'⟩
  unfold triangularMu
  rw [if_neg h1, if_neg (lt_irrefl b), div_self (sub_ne_zero.mpr (ne_of_gt hbc')),
    clamp_one]

/-- C4 counterexample: `triangular(0, 1, 1)` satisfies `a ≤ b ≤ c` but its
value at `b = 1` is `0`, not `1` as the claim states, because `b = c` puts the
peak on the excluded boundary. -/
theorem triangular_peak_counterexample :
    (0 : ℚ) ≤ 1 ∧ (1 : ℚ) ≤ 1 ∧
    (triangular 0 1 1).call 1 = 0 ∧ (triangular 0 1 1).call 1 ≠ 1 := by
  norm_num [triangular, MembershipFunction.call, triangularMu]

/-- C4 witness: a non-degenerate triangle realising every amended conjunct. -/
theorem triangular_boundary_peak_witness :
    (triangular 0 1 2).call 0 = 0 ∧ (triangular 0 1 2).call 2 = 0 ∧
    (∀ x : ℚ, x ≤ 0 ∨ 2 ≤ x → (triangular 0 1 2).call x = 0) ∧
    ((0 : ℚ) < 1 → (1 : ℚ) < 2 → (triangular 0 1 2).call 1 = 1) :=
  triangular_boundary_peak 0 1 2 (by norm_num) (by norm_num)

lemma trapezoidalMu_zero (a b c d x : ℚ) (h : x ≤ a ∨ d ≤ x) :
    trapezoidalMu a b c d x = 0 := by
  unfold trapezoidalMu
  exact if_pos h

/-- C5 (amended): for `a ≤ b ≤ c ≤ d` the trapezoidal function is `0` at `a`,
at `d`, and at every `x ≤ a` or `x ≥ d`; the plateau value `1` on all of
`[b, c]` (hence `f(b) = f(c) = 1`) holds when the plateau is interior
(`a < b` and `c < d`), while a degenerate edge (`b = a` or `c = d`) falls
under the boundary-zero rule. -/
theorem trapezoidal_boundary_plateau (a b c d : ℚ)
    (hab : a ≤ b) (hbc : b ≤ c) (hcd : c ≤ d) :
    (trapezoidal a b c d).call a = 0 ∧ (trapezoidal a b c d).call d = 0 ∧
    (∀ x : ℚ, x ≤ a ∨ d ≤ x → (trapezoidal a b c d).call x = 0) ∧
    (a < b → c < d → ∀ x : ℚ, b ≤ x → x ≤ c →
      (trapezoidal a b c d).call x = 1) := by
  have hz : ∀ x : ℚ, x ≤ a ∨ d ≤ x → (trapezoidal a b c d).call x = 0 := by
    intro x hx
    show max 0 (min 1 (trapezoidalMu a b c d x)) = 0
    rw [trapezoidalMu_zero a b c d x hx, clamp_zero]
  refine ⟨hz a (Or.inl le_rfl), hz d (Or.inr le_rfl), hz, ?_⟩
  intro hab' hcd' x hbx hxc
  show max 0 (min 1 (trapezoidalMu a b c d x)) = 1
  unfold trapezoidalMu
  have h1 : ¬(x ≤ a ∨ x ≥ d) := by
    push_neg
    exact ⟨by linarith, by linarith⟩
  have h2 : ¬(a < x ∧ x < b) := by
    rintro ⟨-, hlt⟩
    linarith
  rw [if_neg h1, if_neg h2, if_pos ⟨hbx, hxc⟩, clamp_one]

/-- C5 counterexample: `trapezoidal(0, 0, 1, 2)` satisfies `a ≤ b ≤ c ≤ d`
but its value at `b = 0` is `0`, not `1` as the claim states, because `a = b`
puts the left plateau edge on the excluded boundary. -/
theorem trapezoidal_plateau_counterexample :
    (0 : ℚ) ≤ 0 ∧ (0 : ℚ) ≤ 1 ∧ (1 : ℚ) ≤ 2 ∧
    (trapezoidal 0 0 1 2).call 0 = 0 ∧ (trapezoidal 0 0 1 2).call 0 ≠ 1 := by
  norm_num [trapezoidal, MembershipFunction.call, trapezoidalMu]

/-- C5 witness: a non-degenerate trapezoid realising every amended conjunct. -/
theorem trapezoidal_boundary_plateau_witness :
    (trapezoidal 0 1 2 3).call 0 = 0 ∧ (trapezoidal 0 1 2 3).call 3 = 0 ∧
    (∀ x : ℚ, x ≤ 0 ∨ 3 ≤ x → (trapezoidal 0 1 2 3).call x = 0) ∧
    ((0 : ℚ) < 1 → (2 : ℚ) < 3 → ∀ x : ℚ, 1 ≤ x → x ≤ 2 →
      (trapezoidal 0 1 2 3).call x = 1) :=
  trapezoidal_boundary_plateau 0 1 2 3 (by norm_num) (by norm_num) (by norm_num)

/-- C2: `defuzzify` is the discrete centroid `Σ(y·μ(y)) / Σ(μ(y))` whenever
the denominator is nonzero, and returns `0.0` (without dividing) when the
total aggregated membership is exactly `0`. -/
theorem defuzzify_centroid (s : FuzzyInferenceSystem) (agg : List (ℚ × ℚ)) :
    ((agg.map (fun p => p.2)).sum = 0 → s.defuzzify agg = 0) ∧
    ((agg.map (fun p => p.2)).sum ≠ 0 →
      s.defuzzify agg =
        (agg.map (fun p => p.1 * p.2)).sum / (agg.map (fun p => p.2)).sum) := by
  unfold FuzzyInferenceSystem.defuzzify
  constructor
  · intro h
    simp [h]
  · intro h
    simp [h]

/-- C2 witness: one aggregation with zero mass and one with mass `2`. -/
theorem defuzzify_centroid_witness :
    FuzzyInferenceSystem.defuzzify ⟨[], [], []⟩ [(1, 0), (3, 0)] = 0 ∧
    FuzzyInferenceSystem.defuzzify ⟨[], [], []⟩ [(1, 1), (3, 1)] =
      (([((1 : ℚ), (1 : ℚ)), (3, 1)].map (fun p => p.1 * p.2)).sum /
        ([((1 : ℚ), (1 : ℚ)), (3, 1)].map (fun p => p.2)).sum) :=
  ⟨(defuzzify_centroid ⟨[], [], []⟩ [(1, 0), (3, 0)]).1 (by norm_num),
   (defuzzify_centroid ⟨[], [], []⟩ [(1, 1), (3, 1)]).2 (by norm_num)⟩

/-- C10: under the stated parameter orderings, every division the shape
functions perform has a nonzero denominator: the checked variants, which
signal a zero denominator with `none`, agree with the unchecked source
functions at every point. -/
theorem shapes_division_safe :
    (∀ a b c x : ℚ, a ≤ b → b ≤ c →
      triangularMuChecked a b c x = some (triangularMu a b c x)) ∧
    (∀ a b c d x : ℚ, a ≤ b → b ≤ c → c ≤ d →
      trapezoidalMuChecked a b c d x = some (trapezoidalMu a b c d x)) := by
  constructor
  · intro a b c x _ _
    unfold triangularMuChecked triangularMu safeDiv
    split_ifs with h1 h2 h3 h4
    · rfl
    · push_neg at h1
      exact absurd h3 (sub_ne_zero.mpr (ne_of_gt (lt_trans h1.1 h2)))
    · rfl
    · push_neg at h1
      exact absurd h4
        (sub_ne_zero.mpr (ne_of_gt (lt_of_le_of_lt (le_of_not_lt h2) h1.2)))
    · rfl
  · intro a b c d x _ _ _
    unfold trapezoidalMuChecked trapezoidalMu safeDiv
    split_ifs with h1 h2 h3 h4 h5
    · rfl
    · exact absurd h3 (sub_ne_zero.mpr (ne_of_gt (lt_trans h2.1 h2.2)))
    · rfl
    · rfl
    · push_neg at h1
      have hbx : b ≤ x := le_of_not_lt (fun hxb => h2 ⟨h1.1, hxb⟩)
      have hcx : c < x := lt_of_not_le (fun hxc => h4 ⟨hbx, hxc⟩)
      exact absurd h5 (sub_ne_zero.mpr (ne_of_gt (lt_trans hcx h1.2)))
    · rfl

/-! ### Dict-building lemmas -/

lemma mem_firstDedupAux (x : ℚ) :
    ∀ (l seen : List ℚ), x ∈ firstDedupAux l seen ↔ x ∈ l ∧ x ∉ seen := by
  intro l
  induction l with
  | nil => intro seen; simp [firstDedupAux]
  | cons y ys ih =>
      intro seen
      by_cases h : y ∈ seen
      · simp only [firstDedupAux, if_pos h, ih, List.mem_cons]
        constructor
        · rintro ⟨hx, hns⟩
          exact ⟨Or.inr hx, hns⟩
        · rintro ⟨hx | hx, hns⟩
          · exact absurd (hx ▸ h) hns
          · exact ⟨hx, hns⟩
      · simp only [firstDedupAux, if_neg h, List.mem_cons, ih, not_or]
        by_cases hxy : x = y
        · subst hxy
          simp [h]
        · simp only [hxy, false_or]
          tauto

lemma mem_firstDedup (x : ℚ) (l : List ℚ) : x ∈ firstDedup l ↔ x ∈ l := by
  simp [firstDedup, mem_firstDedupAux]

lemma firstDedupAux_eq_self :
    ∀ (l seen : List ℚ), l.Nodup → (∀ x ∈ l, x ∉ seen) →
      firstDedupAux l seen = l := by
  intro l
  induction l with
  | nil => intro seen _ _; rfl
  | cons y ys ih =>
      intro seen hnd hdisj
      rw [List.nodup_cons] at hnd
      have hy : y ∉ seen := hdisj y (List.mem_cons_self y ys)
      have hrec : firstDedupAux ys (y :: seen) = ys := by
        apply ih (y :: seen) hnd.2
        intro x hx
        simp only [List.mem_cons, not_or]
        exact ⟨fun hxy => hnd.1 (hxy ▸ hx), hdisj x (List.mem_cons_of_mem y hx)⟩
      rw [firstDedupAux, if_neg hy, hrec]

lemma firstDedup_eq_self (l : List ℚ) (h : l.Nodup) : firstDedup l = l :=
  firstDedupAux_eq_self l [] h (by simp)

lemma firstDedupAux_congr :
    ∀ (l s1 s2 : List ℚ), (∀ a, a ∈ s1 ↔ a ∈ s2) →
      firstDedupAux l s1 = firstDedupAux l s2 := by
  intro l
  induction l with
  | nil => intro s1 s2 _; rfl
  | cons y ys ih =>
      intro s1 s2 h
      by_cases hy : y ∈ s1
      · rw [firstDedupAux, if_pos hy, firstDedupAux, if_pos ((h y).mp hy)]
        exact ih s1 s2 h
      · rw [firstDedupAux, if_neg hy, firstDedupAux, if_neg (fun c => hy ((h y).mpr c))]
        refine congrArg (y :: ·) (ih (y :: s1) (y :: s2) ?_)
        intro a
        simp [h a]

lemma dictGet_map (g : ℚ → ℚ) :
    ∀ (ks : List ℚ) (x : ℚ),
      dictGet (ks.map (fun y => (y, g y))) x =
        if x ∈ ks then some (g x) else none := by
  intro ks
  induction ks with
  | nil => intro x; simp [dictGet]
  | cons k ks ih =>
      intro x
      by_cases h : k = x
      · subst h
        unfold dictGet
        rw [List.map_cons, List.find?_cons_of_pos _ (by simp)]
        simp
      · unfold dictGet
        rw [List.map_cons, List.find?_cons_of_neg _ (by simp [h])]
        rw [show (List.find? (fun p => p.1 = x) (ks.map fun y => (y, g y))).map
              Prod.snd = dictGet (ks.map fun y => (y, g y)) x from rfl, ih]
        have hxk : ¬x = k := fun c => h c.symm
        simp [List.mem_cons, hxk]

lemma dictKeys_any (d : List (ℚ × ℚ)) (k : ℚ) :
    (d.any fun p => p.1 = k) = true ↔ k ∈ dictKeys d := by
  simp [dictKeys, List.any_eq_true, List.mem_map]

lemma dictInsert_of_mem (d : List (ℚ × ℚ)) (k v : ℚ) (h : k ∈ dictKeys d) :
    dictInsert d k v = d.map (fun p => if p.1 = k then (k, v) else p) := by
  unfold dictInsert
  rw [if_pos ((dictKeys_any d k).mpr h)]

lemma dictInsert_of_not_mem (d : List (ℚ × ℚ)) (k v : ℚ)
    (h : k ∉ dictKeys d) : dictInsert d k v = d ++ [(k, v)] := by
  unfold dictInsert
  rw [if_neg (fun c => h ((dictKeys_any d k).mp c))]

lemma buildDict_go (f : ℚ → ℚ) :
    ∀ (l : List ℚ) (d : List (ℚ × ℚ)), (∀ p ∈ d, p.2 = f p.1) →
      l.foldl (fun d x => dictInsert d x (f x)) d =
        d ++ (firstDedupAux l (dictKeys d)).map (fun x => (x, f x)) := by
  intro l
  induction l with
  | nil => intro d _; simp [firstDedupAux]
  | cons x xs ih =>
      intro d hinv
      rw [List.foldl_cons]
      by_cases hx : x ∈ dictKeys d
      · have hins : dictInsert d x (f x) = d := by
          rw [dictInsert_of_mem d x (f x) hx]
          conv_rhs => rw [show d = d.map id from (List.map_id d).symm]
          apply List.map_congr_left
          intro p hp
          simp only [id]
          rcases p with ⟨p1, p2⟩
          by_cases hpx : p1 = x
          · subst hpx
            have h2 := hinv (p1, p2) hp
            simp only at h2
            simp [h2]
          · simp [hpx]
        have hstep : firstDedupAux (x :: xs) (dictKeys d) =
            firstDedupAux xs (dictKeys d) := by
          simp only [firstDedupAux]
          rw [if_pos hx]
        rw [hins, ih d hinv, hstep]
      · have hinv' : ∀ p ∈ d ++ [(x, f x)], p.2 = f p.1 := by
          intro p hp
          rcases List.mem_append.mp hp with h1 | h2
          · exact hinv p h1
          · simp only [List.mem_singleton] at h2
            rw [h2]
        rw [dictInsert_of_not_mem d x (f x) hx, ih (d ++ [(x, f x)]) hinv']
        have hkeys : dictKeys (d ++ [(x, f x)]) = dictKeys d ++ [x] := by
          simp [dictKeys]
        have hcongr : firstDedupAux xs (dictKeys d ++ [x]) =
            firstDedupAux xs (x :: dictKeys d) :=
          firstDedupAux_congr xs _ _ (by intro a; simp [or_comm])
        have hstep : firstDedupAux (x :: xs) (dictKeys d) =
            x :: firstDedupAux xs (x :: dictKeys d) := by
          simp only [firstDedupAux]
          rw [if_neg hx]
        rw [hkeys, hcongr, hstep, List.map_cons, List.append_assoc,
          List.singleton_append]

lemma buildDict_eq (f : ℚ → ℚ) (l : List ℚ) :
    buildDict f l = (firstDedup l).map (fun x => (x, f x)) := by
  have h := buildDict_go f l [] (by simp)
  simpa [buildDict, firstDedup, dictKeys] using h

lemma dictKeys_map (g : ℚ → ℚ) (ks : List ℚ) :
    dictKeys (ks.map (fun y => (y, g y))) = ks := by
  unfold dictKeys
  rw [List.map_map, show (Prod.fst ∘ fun y => (y, g y)) = id from rfl,
    List.map_id]

lemma map_dictInsert (g : ℚ → ℚ) (ks : List ℚ) (y v : ℚ) (hy : y ∈ ks) :
    dictInsert (ks.map (fun z => (z, g z))) y v =
      ks.map (fun z => (z, if z = y then v else g z)) := by
  rw [dictInsert_of_mem _ y v (by rw [dictKeys_map]; exact hy), List.map_map]
  apply List.map_congr_left
  intro z _
  by_cases hzy : z = y
  · subst hzy
    simp
  · simp [hzy]

lemma inner_foldl (m : ℚ → ℚ) :
    ∀ (l : List ℚ) (ks : List ℚ) (g : ℚ → ℚ), (∀ y ∈ l, y ∈ ks) →
      l.foldl
        (fun d y => dictInsert d y (max ((dictGet d y).getD 0) (m y)))
        (ks.map (fun z => (z, g z))) =
      ks.map (fun z => (z, if z ∈ l then max (g z) (m z) else g z)) := by
  intro l
  induction l with
  | nil =>
      intro ks g _
      simp
  | cons y ys ih =>
      intro ks g hsub
      have hy : y ∈ ks := hsub y (List.mem_cons_self y ys)
      rw [List.foldl_cons, dictGet_map g ks y, if_pos hy]
      rw [show (some (g y)).getD 0 = g y from rfl]
      rw [map_dictInsert g ks y (max (g y) (m y)) hy]
      rw [ih ks (fun z => if z = y then max (g y) (m y) else g z)
        (fun z hz => hsub z (List.mem_cons_of_mem y hz))]
      apply List.map_congr_left
      intro z _
      by_cases hzy : z = y
      · subst hzy
        by_cases hzys : z ∈ ys
        · simp only [if_pos rfl, if_pos hzys, List.mem_cons, true_or, if_pos]
          rw [max_assoc, max_self]
        · simp [hzys]
      · by_cases hzys : z ∈ ys
        · simp [hzy, hzys]
        · simp [hzy, hzys]

lemma infer_go (inputs : Inputs) (range : List ℚ) :
    ∀ (rules : List FuzzyRule) (g : ℚ → ℚ),
      rules.foldl
        (fun agg rule =>
          range.foldl
            (fun agg y =>
              dictInsert agg y
                (max ((dictGet agg y).getD 0)
                  (min (rule.antecedent inputs) (rule.consequent.mu.call y))))
            agg)
        ((firstDedup range).map (fun y => (y, g y))) =
      (firstDedup range).map
        (fun y => (y,
          rules.foldl
            (fun acc rule =>
              max acc (min (rule.antecedent inputs) (rule.consequent.mu.call y)))
            (g y))) := by
  intro rules
  induction rules with
  | nil =>
      intro g
      simp
  | cons r rs ih =>
      intro g
      rw [List.foldl_cons]
      rw [inner_foldl (fun y => min (r.antecedent inputs) (r.consequent.mu.call y))
        range (firstDedup range) g (fun y hy => (mem_firstDedup y range).mpr hy)]
      rw [show (firstDedup range).map
            (fun z => (z, if z ∈ range
              then max (g z) (min (r.antecedent inputs) (r.consequent.mu.call z))
              else g z)) =
          (firstDedup range).map
            (fun z => (z, max (g z)
              (min (r.antecedent inputs) (r.consequent.mu.call z)))) from
        List.map_congr_left (fun z hz => by
          rw [if_pos ((mem_firstDedup z range).mp hz)])]
      rw [ih (fun z => max (g z)
        (min (r.antecedent inputs) (r.consequent.mu.call z)))]
      simp

/-- The central characterisation of `infer`: the returned dict has the
deduplicated output points as keys, in order, each mapped to `inferAt`. -/
lemma infer_eq (s : FuzzyInferenceSystem) (inputs : Inputs) :
    s.infer inputs =
      (firstDedup s.output_range).map (fun y => (y, inferAt s inputs y)) := by
  unfold FuzzyInferenceSystem.infer inferAt
  rw [buildDict_eq (fun _ => 0) s.output_range]
  exact infer_go inputs s.output_range s.rules (fun _ => 0)

/-! ### Folded-max lemmas -/

lemma le_foldl_max (g : FuzzyRule → ℚ) :
    ∀ (l : List FuzzyRule) (a : ℚ),
      a ≤ l.foldl (fun acc x => max acc (g x)) a := by
  intro l
  induction l with
  | nil => intro a; exact le_rfl
  | cons x xs ih =>
      intro a
      exact le_trans (le_max_left a (g x)) (ih (max a (g x)))

lemma foldl_max_le (g : FuzzyRule → ℚ) :
    ∀ (l : List FuzzyRule) (a M : ℚ), a ≤ M → (∀ x ∈ l, g x ≤ M) →
      l.foldl (fun acc x => max acc (g x)) a ≤ M := by
  intro l
  induction l with
  | nil => intro a M ha _; exact ha
  | cons x xs ih =>
      intro a M ha hl
      exact ih (max a (g x)) M
        (max_le ha (hl x (List.mem_cons_self x xs)))
        (fun z hz => hl z (List.mem_cons_of_mem x hz))

lemma mem_le_foldl_max (g : FuzzyRule → ℚ) :
    ∀ (l : List FuzzyRule) (a : ℚ) (x : FuzzyRule), x ∈ l →
      g x ≤ l.foldl (fun acc x => max acc (g x)) a := by
  intro l
  induction l with
  | nil => intro a x hx; exact absurd hx (List.not_mem_nil x)
  | cons y ys ih =>
      intro a x hx
      rcases List.mem_cons.mp hx with rfl | hx'
      · exact le_trans (le_max_right a (g x)) (le_foldl_max g ys (max a (g x)))
      · exact ih (max a (g y)) x hx'

lemma foldl_max_eq_init_or_mem (g : FuzzyRule → ℚ) :
    ∀ (l : List FuzzyRule) (a : ℚ),
      l.foldl (fun acc x => max acc (g x)) a = a ∨
      ∃ x ∈ l, l.foldl (fun acc x => max acc (g x)) a = g x := by
  intro l
  induction l with
  | nil => intro a; exact Or.inl rfl
  | cons y ys ih =>
      intro a
      rw [List.foldl_cons]
      rcases ih (max a (g y)) with h0 | ⟨x, hx, hv⟩
      · rcases max_choice a (g y) with hc | hc
        · exact Or.inl (h0.trans hc)
        · exact Or.inr ⟨y, List.mem_cons_self y ys, h0.trans hc⟩
      · exact Or.inr ⟨x, List.mem_cons_of_mem y hx, hv⟩

lemma foldl_max_perm (g : FuzzyRule → ℚ) {l1 l2 : List FuzzyRule}
    (h : l1.Perm l2) :
    ∀ a : ℚ, l1.foldl (fun acc x => max acc (g x)) a =
      l2.foldl (fun acc x => max acc (g x)) a := by
  induction h with
  | nil => intro a; rfl
  | cons x _ ih =>
      intro a
      rw [List.foldl_cons, List.foldl_cons]
      exact ih (max a (g x))
  | swap x y l =>
      intro a
      simp only [List.foldl_cons]
      rw [sup_right_comm]
  | trans _ _ ih1 ih2 =>
      intro a
      rw [ih1 a, ih2 a]

/-- C1: at every output point `y`, `infer` returns the maximum over all rules
of `min(antecedent degree, consequent membership at y)`: the stored value is
an upper bound of those minima, is attained by some rule when the rule list
is nonempty, and is `0.0` when the rule list is empty.  Antecedent degrees
are firing degrees in `[0, 1]` as the data model specifies. -/
theorem infer_pointwise_maximum (s : FuzzyInferenceSystem) (inputs : Inputs)
    (y : ℚ) (hy : y ∈ s.output_range)
    (hdeg : ∀ r ∈ s.rules,
      0 ≤ r.antecedent inputs ∧ r.antecedent inputs ≤ 1) :
    dictGet (s.infer inputs) y = some (inferAt s inputs y) ∧
    (∀ r ∈ s.rules,
      min (r.antecedent inputs) (r.consequent.mu.call y) ≤
        inferAt s inputs y) ∧
    (s.rules ≠ [] → ∃ r ∈ s.rules,
      inferAt s inputs y =
        min (r.antecedent inputs) (r.consequent.mu.call y)) ∧
    (s.rules = [] → inferAt s inputs y = 0) := by
  refine ⟨?_, ?_, ?_, ?_⟩
  · rw [infer_eq, dictGet_map, if_pos ((mem_firstDedup y s.output_range).mpr hy)]
  · intro r hr
    exact mem_le_foldl_max _ s.rules 0 r hr
  · intro hne
    rcases foldl_max_eq_init_or_mem
      (fun r => min (r.antecedent inputs) (r.consequent.mu.call y))
      s.rules 0 with h0 | ⟨r, hr, hv⟩
    · obtain ⟨r0, hr0⟩ := List.exists_mem_of_ne_nil s.rules hne
      have hnn : 0 ≤ min (r0.antecedent inputs) (r0.consequent.mu.call y) :=
        le_min (hdeg r0 hr0).1 (call_nonneg r0.consequent.mu y)
      have hle : min (r0.antecedent inputs) (r0.consequent.mu.call y) ≤
          inferAt s inputs y := mem_le_foldl_max _ s.rules 0 r0 hr0
      refine ⟨r0, hr0, ?_⟩
      have h0' : inferAt s inputs y = 0 := h0
      rw [h0'] at hle ⊢
      exact (le_antisymm hle hnn).symm
    · exact ⟨r, hr, hv⟩
  · intro h
    unfold inferAt
    rw [h]
    rfl

/-- C1 witness: a one-rule system whose antecedent degree is `1/2`. -/
theorem infer_pointwise_maximum_witness :
    (0 : ℚ) ∈ ([0, 1] : List ℚ) ∧
    dictGet
      (FuzzyInferenceSystem.infer
        ⟨[0], [0, 1], [⟨fun _ => 1/2, ⟨triangular 0 1 2, [0, 1]⟩⟩]⟩ [])
      0 =
      some (inferAt
        ⟨[0], [0, 1], [⟨fun _ => 1/2, ⟨triangular 0 1 2, [0, 1]⟩⟩]⟩ [] 0) :=
  ⟨by norm_num,
   (infer_pointwise_maximum
      ⟨[0], [0, 1], [⟨fun _ => 1/2, ⟨triangular 0 1 2, [0, 1]⟩⟩]⟩ [] 0
      (by norm_num)
      (by
        intro r hr
        simp only [List.mem_singleton] at hr
        subst hr
        norm_num)).1⟩

/-- C9: every value in the mapping `infer` returns lies in `[0, 1]`, with no
assumption on the antecedents' firing degrees: the aggregation starts at
`0.0` and each contribution is capped by the clamped consequent membership. -/
theorem infer_values_unit (s : FuzzyInferenceSystem) (inputs : Inputs)
    (p : ℚ × ℚ) (hp : p ∈ s.infer inputs) : 0 ≤ p.2 ∧ p.2 ≤ 1 := by
  rw [infer_eq] at hp
  obtain ⟨y, hy, rfl⟩ := List.mem_map.mp hp
  refine ⟨le_foldl_max _ s.rules 0, ?_⟩
  exact foldl_max_le _ s.rules 0 1 zero_le_one
    (fun r _ => le_trans (min_le_right _ _) (call_le_one r.consequent.mu y))

/-- C9 witness: a rule whose antecedent returns the out-of-range degree `2`;
the aggregated value at the output point `0` is still in `[0, 1]`. -/
theorem infer_values_unit_witness :
    ((0 : ℚ), (0 : ℚ)) ∈
      FuzzyInferenceSystem.infer
        ⟨[0], [0], [⟨fun _ => 2, ⟨triangular 0 1 2, [0]⟩⟩]⟩ [] ∧
    (0 ≤ ((0 : ℚ), (0 : ℚ)).2 ∧ ((0 : ℚ), (0 : ℚ)).2 ≤ 1) := by
  have hp : ((0 : ℚ), (0 : ℚ)) ∈
      FuzzyInferenceSystem.infer
        ⟨[0], [0], [⟨fun _ => 2, ⟨triangular 0 1 2, [0]⟩⟩]⟩ [] := by
    rw [infer_eq]
    norm_num [firstDedup, firstDedupAux, inferAt, triangular,
      MembershipFunction.call, triangularMu]
  exact ⟨hp,
    infer_values_unit ⟨[0], [0], [⟨fun _ => 2, ⟨triangular 0 1 2, [0]⟩⟩]⟩ []
      (0, 0) hp⟩

/-- C7: two systems with the same output universe whose rule lists are
permutations of one another return the very same aggregated mapping on every
input record: rule order is irrelevant. -/
theorem infer_perm_invariant (s1 s2 : FuzzyInferenceSystem) (inputs : Inputs)
    (hout : s1.output_range = s2.output_range)
    (hperm : s1.rules.Perm s2.rules) :
    s1.infer inputs = s2.infer inputs := by
  rw [infer_eq, infer_eq, hout]
  apply List.map_congr_left
  intro y _
  have hval : inferAt s1 inputs y = inferAt s2 inputs y := by
    unfold inferAt
    exact foldl_max_perm
      (fun r => min (r.antecedent inputs) (r.consequent.mu.call y)) hperm 0
  rw [hval]

/-- A concrete rule used to witness permutation invariance. -/
def wRuleA : FuzzyRule :=
  ⟨fun _ => 1/2, ⟨triangular 0 1 2, [0, 1, 2]⟩⟩

/-- A second concrete rule used to witness permutation invariance. -/
def wRuleB : FuzzyRule :=
  ⟨fun _ => 1, ⟨triangular 1 2 3, [0, 1, 2]⟩⟩

/-- C7 witness: swapping the two rules of a concrete system leaves `infer`
unchanged. -/
theorem infer_perm_invariant_witness :
    FuzzyInferenceSystem.infer ⟨[0], [0, 1, 2], [wRuleA, wRuleB]⟩ [] =
      FuzzyInferenceSystem.infer ⟨[0], [0, 1, 2], [wRuleB, wRuleA]⟩ [] :=
  infer_perm_invariant
    ⟨[0], [0, 1, 2], [wRuleA, wRuleB]⟩
    ⟨[0], [0, 1, 2], [wRuleB, wRuleA]⟩
    [] rfl (List.Perm.swap wRuleB wRuleA [])

/-- C8 (amended): the cached table's values always lie in `[0, 1]`, and its
keys are exactly the universe's points in the universe's order whenever the
universe has no duplicate points; a duplicated point is stored only once. -/
theorem members_invariant (A : FuzzySet) :
    (A.univ.Nodup → dictKeys A.members = A.univ) ∧
    (∀ p ∈ A.members, 0 ≤ p.2 ∧ p.2 ≤ 1) := by
  constructor
  · intro hnd
    unfold FuzzySet.members
    rw [buildDict_eq, dictKeys_map, firstDedup_eq_self A.univ hnd]
  · intro p hp
    unfold FuzzySet.members at hp
    rw [buildDict_eq] at hp
    obtain ⟨x, _, rfl⟩ := List.mem_map.mp hp
    exact ⟨call_nonneg A.mu x, call_le_one A.mu x⟩

/-- C8 counterexample: over the universe `[0, 0]` the cached table holds the
key `0` only once, so its key sequence is not the universe's point
sequence. -/
theorem members_keys_counterexample :
    dictKeys (FuzzySet.members ⟨triangular 0 1 2, [0, 0]⟩) ≠
      [(0 : ℚ), 0] := by
  norm_num [FuzzySet.members, buildDict, dictInsert, dictGet, dictKeys,
    List.any_eq_true]

/-- C8 witness: over the duplicate-free universe `[0, 1]` the cached keys are
the universe itself, and the cached value at `0` lies in `[0, 1]`. -/
theorem members_invariant_witness :
    dictKeys (FuzzySet.members ⟨triangular 0 1 2, [0, 1]⟩) = [0, 1] ∧
    (0 ≤ ((0 : ℚ),
        (FuzzySet.membership ⟨triangular 0 1 2, [0, 1]⟩ 0)).2 ∧
      ((0 : ℚ), (FuzzySet.membership ⟨triangular 0 1 2, [0, 1]⟩ 0)).2 ≤ 1) := by
  have hmem : ((0 : ℚ),
      FuzzySet.membership ⟨triangular 0 1 2, [0, 1]⟩ 0) ∈
      FuzzySet.members ⟨triangular 0 1 2, [0, 1]⟩ := by
    unfold FuzzySet.members FuzzySet.membership
    rw [buildDict_eq]
    norm_num [firstDedup, firstDedupAux]
  exact ⟨(members_invariant ⟨triangular 0 1 2, [0, 1]⟩).1 (by norm_num),
    (members_invariant ⟨triangular 0 1 2, [0, 1]⟩).2 _ hmem⟩

/-- C10 witness: the checked shape functions agree with the source ones at
points inside the sloped regions, where the divisions actually happen. -/
theorem shapes_division_safe_witness :
    triangularMuChecked 0 1 2 (3/2) = some (triangularMu 0 1 2 (3/2)) ∧
    trapezoidalMuChecked 0 1 2 3 (5/2) = some (trapezoidalMu 0 1 2 3 (5/2)) :=
  ⟨shapes_division_safe.1 0 1 2 (3/2) (by norm_num) (by norm_num),
   shapes_division_safe.2 0 1 2 3 (5/2) (by norm_num) (by norm_num)
     (by norm_num)⟩
